import Mathlib

/-!
Verification of the comparator-driven sort/search toolkit
(`citybike/algorithms.py`).

The toolkit operates on finite in-memory sequences of opaque items
together with a pure key-extraction function mapping each item to a
totally ordered comparison value.  We model sequences as `List α` and the
key function as `key : α → κ` with `[LinearOrder κ]`.  Python integers
appearing as loop indices are modelled as `Int` (for the binary-search
cursor pair, whose `high` starts at `len - 1` and may be `-1`) or `Nat`
(for the always-nonnegative scan position of `linear_search`).  Python's
floor division `//` agrees with Lean's `Int` division `/` (`Int.ediv`)
for positive divisors.
-/

namespace CityBike

variable {α : Type*} {κ : Type*} [LinearOrder κ]

/-- The sortedness predicate of the spec: every adjacent pair of the list
satisfies `key l[i] ≤ key l[i+1]`. -/
def sortedByKey (key : α → κ) : List α → Prop
  | [] => True
  | [_] => True
  | x :: y :: rest => key x ≤ key y ∧ sortedByKey key (y :: rest)

instance sortedByKey.instDecidable (key : α → κ) :
    ∀ l : List α, Decidable (sortedByKey key l)
  | [] => .isTrue trivial
  | [_] => .isTrue trivial
  | x :: y :: rest =>
    haveI := sortedByKey.instDecidable key (y :: rest)
    inferInstanceAs (Decidable (key x ≤ key y ∧ sortedByKey key (y :: rest)))

/-- `_merge(left, right, key)`: the merge loop of `algorithms.py`.
While both lists are nonempty, compare the heads (`key(left[i]) <=
key(right[j])` keeps the left element first); once one side is
exhausted, the remainder of the other is appended verbatim. -/
def _merge (key : α → κ) : List α → List α → List α
  | [], right => right
  | left, [] => left
  | a :: left, b :: right =>
    if key a ≤ key b then a :: _merge key left (b :: right)
    else b :: _merge key (a :: left) right
termination_by l r => l.length + r.length

/-- `merge_sort(data, key)`: length ≤ 1 returns (a copy of) the input;
otherwise split at `mid = len(data) // 2`, sort both halves recursively
and merge. -/
def merge_sort (key : α → κ) (data : List α) : List α :=
  if data.length ≤ 1 then data
  else
    _merge key (merge_sort key (data.take (data.length / 2)))
      (merge_sort key (data.drop (data.length / 2)))
termination_by data.length
decreasing_by
  · simp only [List.length_take]; omega
  · simp only [List.length_drop]; omega

/-- One pass of the inner `while` loop of `insertion_sort`, expressed on
the *reversed* already-sorted prefix `racc` (head of `racc` = element at
index `j`, scanning downward): while `key(result[j]) > key(current)` the
element at `j` is shifted right (stays in front of `current` in the
reversed prefix); on exit `current` is placed at `j + 1`. -/
def shiftInsert (key : α → κ) (current : α) : List α → List α
  | [] => [current]
  | y :: ys =>
    if key y > key current then y :: shiftInsert key current ys
    else current :: y :: ys

/-- `insertion_sort(data, key)`: works on a copy; for each `i` from 1
upward the held element `result[i]` is inserted into the sorted prefix
by rightward shifting.  The accumulator is the reversed sorted prefix;
`insertion_sort_imp` below is the literal array-level transcription and
is proved to compute the same list. -/
def insertion_sort (key : α → κ) (data : List α) : List α :=
  (data.foldl (fun racc current => shiftInsert key current racc) []).reverse

/-- The `while low <= high` loop of `binary_search`: probe
`mid = (low + high) // 2`, return `mid` when the key there equals
`target`, otherwise narrow to the upper or lower half.  The cursor pair
is `Int`-valued exactly as in Python (`high` starts at `len - 1`).
An out-of-range probe (impossible when `0 ≤ low` and
`high < len`, which holds on every call reachable from
`binary_search`) is mapped to `none`. -/
def bsearchLoop (key : α → κ) (sorted_data : List α) (target : κ)
    (low high : Int) : Option Nat :=
  if low ≤ high then
    match sorted_data[((low + high) / 2).toNat]? with
    | none => none
    | some item =>
      if key item = target then some ((low + high) / 2).toNat
      else if key item < target then
        bsearchLoop key sorted_data target ((low + high) / 2 + 1) high
      else
        bsearchLoop key sorted_data target low ((low + high) / 2 - 1)
  else none
termination_by (high - low + 1).toNat
decreasing_by
  · omega
  · omega

/-- `binary_search(sorted_data, target, key)` with
`low, high = 0, len(sorted_data) - 1`. -/
def binary_search (key : α → κ) (sorted_data : List α) (target : κ) :
    Option Nat :=
  bsearchLoop key sorted_data target 0 ((sorted_data.length : Int) - 1)

/-- The `for i, item in enumerate(data)` loop of `linear_search`. -/
def linearSearchGo (key : α → κ) (target : κ) : List α → Nat → Option Nat
  | [], _ => none
  | item :: rest, i =>
    if key item = target then some i else linearSearchGo key target rest (i + 1)

/-- `linear_search(data, target, key)`: scan left to right, return the
first index whose key equals `target`. -/
def linear_search (key : α → κ) (data : List α) (target : κ) : Option Nat :=
  linearSearchGo key target data 0

/-! ### Basic facts: `sortedByKey` versus `Chain'` and `Pairwise` -/

theorem sortedByKey_iff_chain (key : α → κ) (l : List α) :
    sortedByKey key l ↔ l.Chain' (fun a b => key a ≤ key b) := by
  induction l with
  | nil => simp [sortedByKey]
  | cons x xs ih =>
    cases xs with
    | nil => simp [sortedByKey]
    | cons y ys =>
      rw [sortedByKey, List.chain'_cons]
      exact and_congr_right fun _ => ih

theorem sortedByKey_iff_pairwise (key : α → κ) (l : List α) :
    sortedByKey key l ↔ l.Pairwise (fun a b => key a ≤ key b) := by
  letI : IsTrans α (fun a b => key a ≤ key b) := ⟨fun _ _ _ h h2 => le_trans h h2⟩
  rw [sortedByKey_iff_chain, List.chain'_iff_pairwise]

/-! ### Merge sort: permutation and ordering -/

theorem _merge_perm (key : α → κ) (l r : List α) :
    (_merge key l r).Perm (l ++ r) := by
  induction l, r using _merge.induct key with
  | case1 right => simp [_merge]
  | case2 left h =>
    cases left with
    | nil => simp [_merge]
    | cons a left => simp [_merge]
  | case3 a left b right hab ih =>
    rw [show _merge key (a :: left) (b :: right)
          = a :: _merge key left (b :: right) from by
        rw [_merge]; simp [hab]]
    exact ih.cons a
  | case4 a left b right hab ih =>
    rw [show _merge key (a :: left) (b :: right)
          = b :: _merge key (a :: left) right from by
        rw [_merge]; simp [hab]]
    exact (ih.cons b).trans List.perm_middle.symm

theorem mem__merge {key : α → κ} {l r : List α} {x : α} :
    x ∈ _merge key l r ↔ x ∈ l ∨ x ∈ r := by
  rw [(_merge_perm key l r).mem_iff, List.mem_append]

theorem _merge_pairwise (key : α → κ) {l r : List α}
    (hl : l.Pairwise (fun a b => key a ≤ key b))
    (hr : r.Pairwise (fun a b => key a ≤ key b)) :
    (_merge key l r).Pairwise (fun a b => key a ≤ key b) := by
  induction l, r using _merge.induct key with
  | case1 right => simpa [_merge] using hr
  | case2 left h =>
    cases left with
    | nil => simp [_merge]
    | cons a left => simpa [_merge] using hl
  | case3 a left b right hab ih =>
    rw [show _merge key (a :: left) (b :: right)
          = a :: _merge key left (b :: right) from by
        rw [_merge]; simp [hab]]
    rcases List.pairwise_cons.mp hl with ⟨ha, hl'⟩
    refine List.pairwise_cons.mpr ⟨?_, ih hl' hr⟩
    intro x hx
    rcases mem__merge.mp hx with h | h
    · exact ha x h
    · rcases List.mem_cons.mp h with rfl | h
      · exact hab
      · exact le_trans hab ((List.pairwise_cons.mp hr).1 x h)
  | case4 a left b right hab ih =>
    rw [show _merge key (a :: left) (b :: right)
          = b :: _merge key (a :: left) right from by
        rw [_merge]; simp [hab]]
    rcases List.pairwise_cons.mp hr with ⟨hb, hr'⟩
    refine List.pairwise_cons.mpr ⟨?_, ih hl hr'⟩
    intro x hx
    have hba : key b ≤ key a := le_of_not_le hab
    rcases mem__merge.mp hx with h | h
    · rcases List.mem_cons.mp h with rfl | h
      · exact hba
      · exact le_trans hba ((List.pairwise_cons.mp hl).1 x h)
    · exact hb x h

theorem merge_sort_perm (key : α → κ) (data : List α) :
    (merge_sort key data).Perm data := by
  induction data using merge_sort.induct key with
  | case1 data h =>
    rw [show merge_sort key data = data from by rw [merge_sort]; simp [h]]
  | case2 data h ih1 ih2 =>
    rw [show merge_sort key data
          = _merge key (merge_sort key (data.take (data.length / 2)))
              (merge_sort key (data.drop (data.length / 2))) from by
        rw [merge_sort]; simp [h]]
    refine ((_merge_perm key _ _).trans ((ih1.append ih2).trans ?_))
    rw [List.take_append_drop]

theorem merge_sort_pairwise (key : α → κ) (data : List α) :
    (merge_sort key data).Pairwise (fun a b => key a ≤ key b) := by
  induction data using merge_sort.induct key with
  | case1 data h =>
    rw [show merge_sort key data = data from by rw [merge_sort]; simp [h]]
    match data, h with
    | [], _ => simp
    | [a], _ => simp
  | case2 data h ih1 ih2 =>
    rw [show merge_sort key data
          = _merge key (merge_sort key (data.take (data.length / 2)))
              (merge_sort key (data.drop (data.length / 2))) from by
        rw [merge_sort]; simp [h]]
    exact _merge_pairwise key ih1 ih2

/-! ### Insertion sort: permutation and ordering -/

theorem shiftInsert_perm (key : α → κ) (c : α) (l : List α) :
    (shiftInsert key c l).Perm (c :: l) := by
  induction l with
  | nil => simp [shiftInsert]
  | cons y ys ih =>
    by_cases h : key y > key c
    · simp only [shiftInsert, if_pos h]
      exact (ih.cons y).trans (List.Perm.swap c y ys)
    · simp [shiftInsert, if_neg h]

theorem mem_shiftInsert {key : α → κ} {c x : α} {l : List α} :
    x ∈ shiftInsert key c l ↔ x = c ∨ x ∈ l := by
  rw [(shiftInsert_perm key c l).mem_iff, List.mem_cons]

theorem foldl_shiftInsert_perm (key : α → κ) (xs : List α) :
    ∀ racc, (xs.foldl (fun racc current => shiftInsert key current racc)
      racc).Perm (xs ++ racc) := by
  induction xs with
  | nil => intro racc; simp
  | cons x xs ih =>
    intro racc
    simp only [List.foldl_cons]
    exact (ih _).trans (((shiftInsert_perm key x racc).append_left xs).trans
      List.perm_middle)

theorem insertion_sort_perm (key : α → κ) (data : List α) :
    (insertion_sort key data).Perm data := by
  unfold insertion_sort
  exact (List.reverse_perm _).trans
    ((foldl_shiftInsert_perm key data []).trans (by simp))

theorem shiftInsert_pairwise (key : α → κ) (c : α) {l : List α}
    (h : l.Pairwise (fun a b => key b ≤ key a)) :
    (shiftInsert key c l).Pairwise (fun a b => key b ≤ key a) := by
  induction l with
  | nil => simp [shiftInsert]
  | cons y ys ih =>
    rcases List.pairwise_cons.mp h with ⟨hy, hys⟩
    by_cases hc : key y > key c
    · simp only [shiftInsert, if_pos hc]
      refine List.pairwise_cons.mpr ⟨?_, ih hys⟩
      intro x hx
      rcases mem_shiftInsert.mp hx with rfl | hx
      · exact le_of_lt hc
      · exact hy x hx
    · simp only [shiftInsert, if_neg hc]
      refine List.pairwise_cons.mpr ⟨?_, h⟩
      intro x hx
      rcases List.mem_cons.mp hx with rfl | hx
      · exact le_of_not_lt hc
      · exact le_trans (hy x hx) (le_of_not_lt hc)

theorem insertion_sort_pairwise (key : α → κ) (data : List α) :
    (insertion_sort key data).Pairwise (fun a b => key a ≤ key b) := by
  have main : ∀ (xs racc : List α),
      racc.Pairwise (fun a b => key b ≤ key a) →
      (xs.foldl (fun racc current => shiftInsert key current racc)
        racc).Pairwise (fun a b => key b ≤ key a) := by
    intro xs
    induction xs with
    | nil => intro racc h; simpa
    | cons x xs ih => intro racc h; exact ih _ (shiftInsert_pairwise key x h)
  unfold insertion_sort
  rw [List.pairwise_reverse]
  exact main data [] (by simp)

/-- C1: for every finite input list `S` and key function, both
`merge_sort` and `insertion_sort` return a list with exactly the same
multiset of items as `S` (a permutation), ordered non-decreasingly by
`key` at every adjacent position. -/
theorem claim_C1_sorts_permutation_and_ordering (key : α → κ) (S : List α) :
    ((merge_sort key S).Perm S ∧ sortedByKey key (merge_sort key S)) ∧
    ((insertion_sort key S).Perm S ∧ sortedByKey key (insertion_sort key S)) :=
  ⟨⟨merge_sort_perm key S,
      (sortedByKey_iff_pairwise key _).mpr (merge_sort_pairwise key S)⟩,
    ⟨insertion_sort_perm key S,
      (sortedByKey_iff_pairwise key _).mpr (insertion_sort_pairwise key S)⟩⟩

/-! ### Stability: the equal-key sublist is preserved -/

theorem _merge_filter (key : α → κ) (k : κ) {l : List α} (r : List α)
    (hl : l.Pairwise (fun a b => key a ≤ key b)) :
    (_merge key l r).filter (fun x => decide (key x = k))
      = l.filter (fun x => decide (key x = k))
        ++ r.filter (fun x => decide (key x = k)) := by
  induction l, r using _merge.induct key with
  | case1 right => simp [_merge]
  | case2 left h =>
    cases left with
    | nil => simp [_merge]
    | cons a left => simp [_merge]
  | case3 a left b right hab ih =>
    rw [show _merge key (a :: left) (b :: right)
          = a :: _merge key left (b :: right) from by
        rw [_merge]; simp [hab]]
    rw [List.filter_cons, List.filter_cons,
      ih (List.pairwise_cons.mp hl).2]
    by_cases hak : key a = k <;> simp [hak]
  | case4 a left b right hab ih =>
    rw [show _merge key (a :: left) (b :: right)
          = b :: _merge key (a :: left) right from by
        rw [_merge]; simp [hab]]
    rw [List.filter_cons, ih hl]
    by_cases hbk : key b = k
    · have hempty : (a :: left).filter (fun x => decide (key x = k)) = [] := by
        rw [List.filter_eq_nil_iff]
        intro x hx
        have hax : key a ≤ key x := by
          rcases List.mem_cons.mp hx with rfl | hx
          · exact le_refl _
          · exact (List.pairwise_cons.mp hl).1 x hx
        have hbx : key b < key x := lt_of_lt_of_le (lt_of_not_le hab) hax
        simp only [decide_eq_true_eq]
        intro hxk
        rw [hbk, hxk] at hbx
        exact lt_irrefl k hbx
      rw [hempty]
      simp [List.filter_cons, hbk]
    · simp [List.filter_cons, hbk]

theorem merge_sort_filter (key : α → κ) (k : κ) (data : List α) :
    (merge_sort key data).filter (fun x => decide (key x = k))
      = data.filter (fun x => decide (key x = k)) := by
  induction data using merge_sort.induct key with
  | case1 data h => rw [merge_sort]; simp [h]
  | case2 data h ih1 ih2 =>
    rw [show merge_sort key data
          = _merge key (merge_sort key (data.take (data.length / 2)))
              (merge_sort key (data.drop (data.length / 2))) from by
        rw [merge_sort]; simp [h]]
    rw [_merge_filter key k _ (merge_sort_pairwise key _), ih1, ih2,
      ← List.filter_append, List.take_append_drop]

theorem shiftInsert_filter (key : α → κ) (k : κ) (c : α) (l : List α) :
    (shiftInsert key c l).filter (fun x => decide (key x = k))
      = if key c = k then c :: l.filter (fun x => decide (key x = k))
        else l.filter (fun x => decide (key x = k)) := by
  induction l with
  | nil => by_cases hck : key c = k <;> simp [shiftInsert, hck]
  | cons y ys ih =>
    by_cases h : key y > key c
    · rw [show shiftInsert key c (y :: ys) = y :: shiftInsert key c ys from by
        simp [shiftInsert, h]]
      rw [List.filter_cons, ih]
      by_cases hck : key c = k
      · have hy : ¬(key y = k) := by
          intro hyk2
          rw [hck, hyk2] at h
          exact lt_irrefl k h
        simp [List.filter_cons, hck, hy]
      · simp [List.filter_cons, hck]
    · rw [show shiftInsert key c (y :: ys) = c :: y :: ys from by
        simp [shiftInsert, h]]
      by_cases hck : key c = k <;> simp [List.filter_cons, hck]

theorem insertion_sort_filter (key : α → κ) (k : κ) (data : List α) :
    (insertion_sort key data).filter (fun x => decide (key x = k))
      = data.filter (fun x => decide (key x = k)) := by
  have main : ∀ (xs racc : List α),
      ((xs.foldl (fun racc current => shiftInsert key current racc)
          racc).filter (fun x => decide (key x = k)))
        = (xs.filter (fun x => decide (key x = k))).reverse
          ++ racc.filter (fun x => decide (key x = k)) := by
    intro xs
    induction xs with
    | nil => intro racc; simp
    | cons x xs ih =>
      intro racc
      simp only [List.foldl_cons]
      rw [ih, shiftInsert_filter, List.filter_cons]
      by_cases hxk : key x = k <;> simp [hxk]
  unfold insertion_sort
  rw [List.filter_reverse, main data [], List.filter_nil, List.append_nil,
    List.reverse_reverse]

/-- C2: both sorts are stable: for every key value `k`, the sublist of
items whose key equals `k` is exactly the same (same items, same
relative order) in the output as in the input. -/
theorem claim_C2_sorts_stable (key : α → κ) (S : List α) (k : κ) :
    (merge_sort key S).filter (fun x => decide (key x = k))
        = S.filter (fun x => decide (key x = k)) ∧
    (insertion_sort key S).filter (fun x => decide (key x = k))
        = S.filter (fun x => decide (key x = k)) :=
  ⟨merge_sort_filter key k S, insertion_sort_filter key k S⟩

/-! ### Idempotence on sorted input -/

theorem _merge_of_sorted_append (key : α → κ) {l : List α} (r : List α)
    (h : (l ++ r).Pairwise (fun a b => key a ≤ key b)) :
    _merge key l r = l ++ r := by
  induction l generalizing r with
  | nil => simp [_merge]
  | cons a l ih =>
    cases r with
    | nil => simp [_merge]
    | cons b r =>
      have hab : key a ≤ key b :=
        (List.pairwise_append.mp h).2.2 a (by simp) b (by simp)
      rw [show _merge key (a :: l) (b :: r)
            = a :: _merge key l (b :: r) from by
          rw [_merge]; simp [hab]]
      have h' : (l ++ b :: r).Pairwise (fun a b => key a ≤ key b) :=
        (List.pairwise_cons.mp (by simpa using h)).2
      rw [ih (b :: r) h', List.cons_append]

theorem merge_sort_of_sorted (key : α → κ) (data : List α) :
    data.Pairwise (fun a b => key a ≤ key b) → merge_sort key data = data := by
  induction data using merge_sort.induct key with
  | case1 data hlen => intro _; rw [merge_sort]; simp [hlen]
  | case2 data hlen ih1 ih2 =>
    intro h
    rw [show merge_sort key data
          = _merge key (merge_sort key (data.take (data.length / 2)))
              (merge_sort key (data.drop (data.length / 2))) from by
        rw [merge_sort]; simp [hlen]]
    rw [ih1 (h.sublist (List.take_sublist _ _)),
      ih2 (h.sublist (List.drop_sublist _ _)),
      _merge_of_sorted_append key _ (by rwa [List.take_append_drop])]
    exact List.take_append_drop _ _

theorem foldl_shiftInsert_of_sorted (key : α → κ) (xs : List α) :
    ∀ racc, xs.Pairwise (fun a b => key a ≤ key b) →
      (∀ y ∈ racc, ∀ x ∈ xs, key y ≤ key x) →
      xs.foldl (fun racc current => shiftInsert key current racc) racc
        = xs.reverse ++ racc := by
  induction xs with
  | nil => intro racc _ _; simp
  | cons x xs ih =>
    intro racc hp hr
    have hstep : shiftInsert key x racc = x :: racc := by
      cases racc with
      | nil => simp [shiftInsert]
      | cons y ys =>
        have : key y ≤ key x := hr y (by simp) x (by simp)
        simp [shiftInsert, not_lt.mpr this]
    simp only [List.foldl_cons, hstep]
    rw [ih (x :: racc) (List.pairwise_cons.mp hp).2 ?_]
    · simp
    · intro y hy z hz
      rcases List.mem_cons.mp hy with rfl | hy
      · exact (List.pairwise_cons.mp hp).1 z hz
      · exact hr y hy z (List.mem_cons_of_mem x hz)

theorem insertion_sort_of_sorted (key : α → κ) (data : List α)
    (h : data.Pairwise (fun a b => key a ≤ key b)) :
    insertion_sort key data = data := by
  unfold insertion_sort
  rw [foldl_shiftInsert_of_sorted key data [] h (by simp)]
  simp

/-- C6: sorting is idempotent: on a list that is already non-decreasing
under `key`, both `merge_sort` and `insertion_sort` return the input
list itself. -/
theorem claim_C6_sort_idempotent (key : α → κ) (S : List α)
    (h : sortedByKey key S) :
    merge_sort key S = S ∧ insertion_sort key S = S :=
  ⟨merge_sort_of_sorted key S ((sortedByKey_iff_pairwise key S).mp h),
    insertion_sort_of_sorted key S ((sortedByKey_iff_pairwise key S).mp h)⟩

/-- Witness for C6 at the concrete sorted list `[1, 2, 3]`. -/
theorem claim_C6_witness :
    merge_sort (fun x : Nat => x) [1, 2, 3] = [1, 2, 3] ∧
    insertion_sort (fun x : Nat => x) [1, 2, 3] = [1, 2, 3] :=
  claim_C6_sort_idempotent (fun x : Nat => x) [1, 2, 3] (by decide)

/-- C7: `merge_sort` and `insertion_sort` produce identical key
projections: mapping `key` over the two outputs gives equal lists. -/
theorem claim_C7_cross_check_key_projections (key : α → κ) (S : List α) :
    (merge_sort key S).map key = (insertion_sort key S).map key := by
  have hperm : ((merge_sort key S).map key).Perm
      ((insertion_sort key S).map key) :=
    ((merge_sort_perm key S).map key).trans
      ((insertion_sort_perm key S).map key).symm
  have h1 : List.Sorted (· ≤ ·) ((merge_sort key S).map key) :=
    List.pairwise_map.mpr (merge_sort_pairwise key S)
  have h2 : List.Sorted (· ≤ ·) ((insertion_sort key S).map key) :=
    List.pairwise_map.mpr (insertion_sort_pairwise key S)
  exact List.eq_of_perm_of_sorted hperm h1 h2

/-! ### Binary search: soundness and completeness -/

theorem mem_of_getElem_some {l : List α} {i : Nat} {x : α}
    (h : l[i]? = some x) : x ∈ l := by
  rcases List.getElem?_eq_some_iff.mp h with ⟨hi, he⟩
  exact he ▸ List.get_mem l i hi

/-- Monotonicity of the key along a pairwise-sorted list, phrased on
`getElem?`. -/
theorem key_mono_getElem (key : α → κ) {data : List α}
    (hs : data.Pairwise (fun a b => key a ≤ key b)) {i j : Nat} {x y : α}
    (hij : i ≤ j) (hx : data[i]? = some x) (hy : data[j]? = some y) :
    key x ≤ key y := by
  rcases List.getElem?_eq_some_iff.mp hx with ⟨hi, hxe⟩
  rcases List.getElem?_eq_some_iff.mp hy with ⟨hj, hye⟩
  rcases Nat.eq_or_lt_of_le hij with rfl | hlt
  · rw [hxe] at hye
    rw [hye]
  · have := List.pairwise_iff_get.mp hs ⟨i, hi⟩ ⟨j, hj⟩ hlt
    rw [List.get_eq_getElem, List.get_eq_getElem, hxe, hye] at this
    exact this

/-- Any index returned by the `while` loop points at an element whose
key equals the target (no sortedness assumption). -/
theorem bsearchLoop_some (key : α → κ) (data : List α) (target : κ) :
    ∀ low high i, bsearchLoop key data target low high = some i →
      ∃ x, data[i]? = some x ∧ key x = target := by
  intro low high
  induction low, high using bsearchLoop.induct key data target with
  | case1 low high h1 h2 =>
    intro i hi
    rw [bsearchLoop] at hi
    simp [h1, h2] at hi
  | case2 low high h1 item h2 h3 =>
    intro i hi
    rw [bsearchLoop] at hi
    simp only [if_pos h1, h2, if_pos h3] at hi
    obtain rfl := Option.some_injective _ hi.symm
    exact ⟨item, h2, h3⟩
  | case3 low high h1 item h2 h3 h4 ih =>
    intro i hi
    rw [bsearchLoop] at hi
    simp only [if_pos h1, h2, if_neg h3, if_pos h4] at hi
    exact ih i hi
  | case4 low high h1 item h2 h3 h4 ih =>
    intro i hi
    rw [bsearchLoop] at hi
    simp only [if_pos h1, h2, if_neg h3, if_neg h4] at hi
    exact ih i hi
  | case5 low high h1 =>
    intro i hi
    rw [bsearchLoop] at hi
    simp [h1] at hi

/-- If some element with key = target lies inside the closed range
`[low, high]` of a list sorted by `key`, the loop finds one. -/
theorem bsearchLoop_complete (key : α → κ) (data : List α) (target : κ)
    (hs : data.Pairwise (fun a b => key a ≤ key b)) :
    ∀ low high, 0 ≤ low → high ≤ (data.length : Int) - 1 →
      (∃ (m : Nat) (x : α), low ≤ (m : Int) ∧ (m : Int) ≤ high ∧
        data[m]? = some x ∧ key x = target) →
      ∃ i, bsearchLoop key data target low high = some i := by
  intro low high
  induction low, high using bsearchLoop.induct key data target with
  | case1 low high h1 h2 =>
    rintro hlow hhigh ⟨m, x, hm1, hm2, hx, hkx⟩
    exfalso
    have hmlen : m < data.length := (List.getElem?_eq_some_iff.mp hx).1
    have hmid : ((low + high) / 2).toNat < data.length := by omega
    rw [List.getElem?_eq_getElem hmid] at h2
    cases h2
  | case2 low high h1 item h2 h3 =>
    intro _ _ _
    refine ⟨((low + high) / 2).toNat, ?_⟩
    rw [bsearchLoop]
    simp only [if_pos h1, h2, if_pos h3]
  | case3 low high h1 item h2 h3 h4 ih =>
    rintro hlow hhigh ⟨m, x, hm1, hm2, hx, hkx⟩
    rw [bsearchLoop]
    simp only [if_pos h1, h2, if_neg h3, if_pos h4]
    refine ih (by omega) hhigh ⟨m, x, ?_, hm2, hx, hkx⟩
    by_contra hcon
    push_neg at hcon
    have hmmid : m ≤ ((low + high) / 2).toNat := by omega
    have : key x ≤ key item := key_mono_getElem key hs hmmid hx h2
    rw [hkx] at this
    exact absurd (lt_of_le_of_lt this h4) (lt_irrefl target)
  | case4 low high h1 item h2 h3 h4 ih =>
    rintro hlow hhigh ⟨m, x, hm1, hm2, hx, hkx⟩
    rw [bsearchLoop]
    simp only [if_pos h1, h2, if_neg h3, if_neg h4]
    have hmlen : m < data.length := (List.getElem?_eq_some_iff.mp hx).1
    refine ih hlow (by omega) ⟨m, x, hm1, ?_, hx, hkx⟩
    by_contra hcon
    push_neg at hcon
    have hmidm : ((low + high) / 2).toNat ≤ m := by omega
    have hle : key item ≤ key x := key_mono_getElem key hs hmidm h2 hx
    rw [hkx] at hle
    have hgt : target < key item := lt_of_le_of_ne (le_of_not_lt h4) (Ne.symm h3)
    exact absurd (lt_of_lt_of_le hgt hle) (lt_irrefl target)
  | case5 low high h1 =>
    rintro hlow hhigh ⟨m, x, hm1, hm2, hx, hkx⟩
    exfalso
    omega

theorem binary_search_sound (key : α → κ) (data : List α) (target : κ)
    (i : Nat) (h : binary_search key data target = some i) :
    ∃ x, data[i]? = some x ∧ key x = target := by
  unfold binary_search at h
  exact bsearchLoop_some key data target _ _ i h

theorem binary_search_found (key : α → κ) (data : List α) (target : κ)
    (hs : data.Pairwise (fun a b => key a ≤ key b))
    (hex : ∃ (m : Nat) (x : α), data[m]? = some x ∧ key x = target) :
    ∃ i, binary_search key data target = some i := by
  obtain ⟨m, x, hx, hkx⟩ := hex
  have hmlen : m < data.length := (List.getElem?_eq_some_iff.mp hx).1
  unfold binary_search
  exact bsearchLoop_complete key data target hs 0 ((data.length : Int) - 1)
    (by omega) (by omega) ⟨m, x, by omega, by omega, hx, hkx⟩

theorem binary_search_none (key : α → κ) (data : List α) (target : κ)
    (hnone : ∀ x ∈ data, key x ≠ target) :
    binary_search key data target = none := by
  cases h : binary_search key data target with
  | none => rfl
  | some i =>
    obtain ⟨x, hx, hkx⟩ := binary_search_sound key data target i h
    exact absurd hkx (hnone x (mem_of_getElem_some hx))

/-- C3: on a list sorted non-decreasingly by `key`, `binary_search`
returns the index of *an* element whose key equals the target whenever
one exists, and `none` when none matches; in particular on
`[1,3,5,7,9]` with the identity key, target 5 yields index 2 and
target 4 yields `none`. -/
theorem claim_C3_binary_search_correct (key : α → κ) (S : List α)
    (target : κ) (hs : sortedByKey key S) :
    ((∃ (m : Nat) (x : α), S[m]? = some x ∧ key x = target) →
      ∃ (i : Nat) (x : α), binary_search key S target = some i ∧
        S[i]? = some x ∧ key x = target) ∧
    ((∀ x ∈ S, key x ≠ target) → binary_search key S target = none) ∧
    binary_search (fun x : Nat => x) [1, 3, 5, 7, 9] 5 = some 2 ∧
    binary_search (fun x : Nat => x) [1, 3, 5, 7, 9] 4 = none := by
  refine ⟨?_, fun h => binary_search_none key S target h, ?_, ?_⟩
  · intro hex
    obtain ⟨i, hi⟩ := binary_search_found key S target
      ((sortedByKey_iff_pairwise key S).mp hs) hex
    obtain ⟨x, hx, hkx⟩ := binary_search_sound key S target i hi
    exact ⟨i, x, hi, hx, hkx⟩
  · have hs5 : ([1, 3, 5, 7, 9] : List Nat).Pairwise
        (fun a b => (fun x : Nat => x) a ≤ (fun x : Nat => x) b) :=
      (sortedByKey_iff_pairwise (fun x : Nat => x) _).mp (by decide)
    obtain ⟨i, hi⟩ := binary_search_found (fun x : Nat => x)
      [1, 3, 5, 7, 9] 5 hs5 ⟨2, 5, by decide, rfl⟩
    obtain ⟨x, hx, hkx⟩ := binary_search_sound _ _ _ _ hi
    subst hkx
    have : i = 2 := by
      have hlen : i < 5 := by
        have := (List.getElem?_eq_some_iff.mp hx).1
        simpa using this
      interval_cases i <;> revert hx <;> decide
    rw [this] at hi
    exact hi
  · exact binary_search_none _ _ _ (by decide)

/-- C10: unconditional soundness of `binary_search`: with no ordering
precondition at all, a returned index is always in bounds and points at
an element whose key equals the target. -/
theorem claim_C10_binary_search_unconditionally_sound (key : α → κ)
    (data : List α) (target : κ) (i : Nat)
    (h : binary_search key data target = some i) :
    i < data.length ∧ ∃ x, data[i]? = some x ∧ key x = target := by
  obtain ⟨x, hx, hkx⟩ := binary_search_sound key data target i h
  exact ⟨(List.getElem?_eq_some_iff.mp hx).1, x, hx, hkx⟩

/-- Witness for C10 on the *unsorted* list `[5, 1, 9]`: the call returns
index 1 and the soundness theorem applies to it. -/
theorem claim_C10_witness :
    (1 : Nat) < ([5, 1, 9] : List Nat).length ∧
    ∃ x, ([5, 1, 9] : List Nat)[1]? = some x ∧ (fun x : Nat => x) x = 1 :=
  claim_C10_binary_search_unconditionally_sound (fun x : Nat => x)
    [5, 1, 9] 1 1 (by rw [binary_search, bsearchLoop]; norm_num)

/-! ### Linear search -/

theorem linearSearchGo_succ (key : α → κ) (target : κ) :
    ∀ (l : List α) (s : Nat),
      linearSearchGo key target l (s + 1)
        = (linearSearchGo key target l s).map (· + 1) := by
  intro l
  induction l with
  | nil => intro s; simp [linearSearchGo]
  | cons x xs ih =>
    intro s
    by_cases h : key x = target <;> simp [linearSearchGo, h, ih]

theorem linear_search_lowest (key : α → κ) (data : List α) (target : κ) :
    ∀ i, linear_search key data target = some i →
      ∃ x, data[i]? = some x ∧ key x = target ∧
        ∀ j y, j < i → data[j]? = some y → key y ≠ target := by
  unfold linear_search
  induction data with
  | nil => intro i h; simp [linearSearchGo] at h
  | cons a xs ih =>
    intro i h
    by_cases hk : key a = target
    · rw [show linearSearchGo key target (a :: xs) 0 = some 0 from by
        simp [linearSearchGo, hk]] at h
      obtain rfl := Option.some_injective _ h.symm
      exact ⟨a, by simp, hk, fun j y hj _ => absurd hj (Nat.not_lt_zero j)⟩
    · rw [show linearSearchGo key target (a :: xs) 0
            = (linearSearchGo key target xs 0).map (· + 1) from by
        simp [linearSearchGo, hk, linearSearchGo_succ]] at h
      rcases Option.map_eq_some'.mp h with ⟨i2, hgo, hi⟩
      subst hi
      obtain ⟨x, hx, hkx, hmin⟩ := ih i2 hgo
      refine ⟨x, by simpa using hx, hkx, ?_⟩
      intro j y hj hy
      cases j with
      | zero =>
        rw [List.getElem?_cons_zero] at hy
        obtain rfl := Option.some_injective _ hy.symm
        exact hk
      | succ j2 =>
        rw [List.getElem?_cons_succ] at hy
        exact hmin j2 y (by omega) hy

theorem linear_search_none (key : α → κ) (data : List α) (target : κ) :
    (∀ x ∈ data, key x ≠ target) → linear_search key data target = none := by
  unfold linear_search
  induction data with
  | nil => intro _; simp [linearSearchGo]
  | cons a xs ih =>
    intro h
    have hk : ¬(key a = target) := h a (by simp)
    rw [show linearSearchGo key target (a :: xs) 0
          = (linearSearchGo key target xs 0).map (· + 1) from by
      simp [linearSearchGo, hk, linearSearchGo_succ]]
    rw [ih (fun x hx => h x (List.mem_cons_of_mem a hx))]
    rfl

theorem linear_search_found (key : α → κ) (data : List α) (target : κ) :
    (∃ x ∈ data, key x = target) →
      ∃ i, linear_search key data target = some i := by
  unfold linear_search
  induction data with
  | nil => rintro ⟨x, hx, _⟩; cases hx
  | cons a xs ih =>
    rintro ⟨x, hx, hkx⟩
    by_cases hk : key a = target
    · exact ⟨0, by simp [linearSearchGo, hk]⟩
    · rcases List.mem_cons.mp hx with rfl | hx2
      · exact absurd hkx hk
      · obtain ⟨i, hi⟩ := ih ⟨x, hx2, hkx⟩
        refine ⟨i + 1, ?_⟩
        rw [show linearSearchGo key target (a :: xs) 0
              = (linearSearchGo key target xs 0).map (· + 1) from by
          simp [linearSearchGo, hk, linearSearchGo_succ]]
        rw [hi]
        rfl

/-- C4: `linear_search` returns the lowest matching index when a match
exists (every strictly smaller index holds a non-matching element) and
`none` otherwise, with no ordering precondition; in particular on
`[("a",1),("b",2),("c",1)]` with key = second component and target 1 it
returns index 0. -/
theorem claim_C4_linear_search_first_match (key : α → κ) (data : List α)
    (target : κ) :
    (∀ i, linear_search key data target = some i →
      ∃ x, data[i]? = some x ∧ key x = target ∧
        ∀ j y, j < i → data[j]? = some y → key y ≠ target) ∧
    ((∃ x ∈ data, key x = target) →
      ∃ i, linear_search key data target = some i) ∧
    ((∀ x ∈ data, key x ≠ target) → linear_search key data target = none) ∧
    linear_search (fun p : String × Nat => p.2)
      [("a", 1), ("b", 2), ("c", 1)] 1 = some 0 :=
  ⟨linear_search_lowest key data target,
    linear_search_found key data target,
    linear_search_none key data target, rfl⟩

/-- Witness for C4: the no-match component applied at a concrete list. -/
theorem claim_C4_witness :
    linear_search (fun x : Nat => x) [3, 4] 7 = none :=
  (claim_C4_linear_search_first_match (fun x : Nat => x) [3, 4] 7).2.2.1
    (by decide)

/-- Witness for C3: the concrete-example component, extracted by applying
the theorem with the sortedness precondition discharged by `decide`. -/
theorem claim_C3_witness :
    binary_search (fun x : Nat => x) [1, 3, 5, 7, 9] 5 = some 2 :=
  (claim_C3_binary_search_correct (fun x : Nat => x) [1, 3, 5, 7, 9] 5
    (by decide)).2.2.1

/-! ### Termination (C9): fuel-instrumented loops

Each recursion / loop of the toolkit is replayed with an explicit fuel
counter that is spent once per iteration (or recursion level); `none`
means the fuel ran out.  Proving that the stated fuel always suffices
and reproduces the value of the direct definition is the termination
argument of the claim: the merge-sort recursion depth is bounded because
each half is strictly shorter, and each loop performs at most
(length-many / range-many) iterations. -/

/-- `merge_sort` with an explicit bound on the recursion depth. -/
def merge_sortFuel (key : α → κ) : Nat → List α → Option (List α)
  | 0, _ => none
  | fuel + 1, data =>
    if data.length ≤ 1 then some data
    else
      match merge_sortFuel key fuel (data.take (data.length / 2)),
            merge_sortFuel key fuel (data.drop (data.length / 2)) with
      | some l, some r => some (_merge key l r)
      | _, _ => none

theorem merge_sortFuel_eq (key : α → κ) :
    ∀ fuel (data : List α), data.length < fuel →
      merge_sortFuel key fuel data = some (merge_sort key data) := by
  intro fuel
  induction fuel with
  | zero => intro data h; exact absurd h (Nat.not_lt_zero _)
  | succ n ih =>
    intro data h
    by_cases hlen : data.length ≤ 1
    · rw [show merge_sort key data = data from by rw [merge_sort]; simp [hlen]]
      simp [merge_sortFuel, hlen]
    · have h1 : (data.take (data.length / 2)).length < n := by
        simp only [List.length_take]; omega
      have h2 : (data.drop (data.length / 2)).length < n := by
        simp only [List.length_drop]; omega
      rw [show merge_sort key data
            = _merge key (merge_sort key (data.take (data.length / 2)))
                (merge_sort key (data.drop (data.length / 2))) from by
          rw [merge_sort]; simp [hlen]]
      simp [merge_sortFuel, hlen, ih _ h1, ih _ h2]

/-- The binary-search loop with fuel spent once per iteration. -/
def bsearchLoopFuel (key : α → κ) (data : List α) (target : κ) :
    Nat → Int → Int → Option (Option Nat) := fun fuel low high =>
  if low ≤ high then
    match fuel with
    | 0 => none
    | n + 1 =>
      match data[((low + high) / 2).toNat]? with
      | none => some none
      | some item =>
        if key item = target then some (some ((low + high) / 2).toNat)
        else if key item < target then
          bsearchLoopFuel key data target n ((low + high) / 2 + 1) high
        else
          bsearchLoopFuel key data target n low ((low + high) / 2 - 1)
  else some none

theorem bsearchLoopFuel_eq (key : α → κ) (data : List α) (target : κ) :
    ∀ fuel (low high : Int), (high - low + 1).toNat < fuel →
      bsearchLoopFuel key data target fuel low high
        = some (bsearchLoop key data target low high) := by
  intro fuel
  induction fuel with
  | zero => intro low high h; exact absurd h (Nat.not_lt_zero _)
  | succ n ih =>
    intro low high h
    rw [bsearchLoop]
    by_cases h1 : low ≤ high
    · cases hget : data[((low + high) / 2).toNat]? with
      | none => simp [bsearchLoopFuel, h1, hget]
      | some item =>
        by_cases h3 : key item = target
        · simp [bsearchLoopFuel, h1, hget, h3]
        · by_cases h4 : key item < target
          · simp [bsearchLoopFuel, h1, hget, h3, h4,
              ih ((low + high) / 2 + 1) high (by omega)]
          · simp [bsearchLoopFuel, h1, hget, h3, h4,
              ih low ((low + high) / 2 - 1) (by omega)]
    · simp [bsearchLoopFuel, h1]

theorem shiftInsert_length (key : α → κ) (current : α) (l : List α) :
    (shiftInsert key current l).length = l.length + 1 := by
  induction l with
  | nil => simp [shiftInsert]
  | cons y ys ih =>
    by_cases h : key y > key current <;> simp [shiftInsert, h, ih]

/-- The inner `while` loop of `insertion_sort` with fuel spent once per
shift. -/
def shiftInsertFuel (key : α → κ) (current : α) :
    Nat → List α → Option (List α)
  | _, [] => some [current]
  | fuel + 1, y :: ys =>
    if key y > key current then
      (shiftInsertFuel key current fuel ys).map (y :: ·)
    else some (current :: y :: ys)
  | 0, _ :: _ => none

theorem shiftInsertFuel_eq (key : α → κ) (current : α) :
    ∀ (l : List α) fuel, l.length ≤ fuel →
      shiftInsertFuel key current fuel l
        = some (shiftInsert key current l) := by
  intro l
  induction l with
  | nil => intro fuel _; cases fuel <;> simp [shiftInsertFuel, shiftInsert]
  | cons y ys ih =>
    intro fuel hlen
    cases fuel with
    | zero => simp at hlen
    | succ n =>
      have : ys.length ≤ n := by simpa using hlen
      by_cases h : key y > key current <;>
        simp [shiftInsertFuel, shiftInsert, h, ih n this]

/-- `insertion_sort` with fuel for the inner loop. -/
def insertion_sortFuel (key : α → κ) (fuel : Nat) (data : List α) :
    Option (List α) :=
  (data.foldl
    (fun acc current => acc.bind (shiftInsertFuel key current fuel))
    (some [])).map List.reverse

theorem insertion_sortFuel_eq (key : α → κ) (data : List α) :
    insertion_sortFuel key data.length data
      = some (insertion_sort key data) := by
  have main : ∀ (xs racc : List α) fuel, racc.length + xs.length ≤ fuel →
      xs.foldl (fun acc current => acc.bind (shiftInsertFuel key current fuel))
          (some racc)
        = some (xs.foldl (fun racc current => shiftInsert key current racc)
            racc) := by
    intro xs
    induction xs with
    | nil => intro racc fuel _; simp
    | cons x xs ih =>
      intro racc fuel h
      simp only [List.foldl_cons, Option.some_bind]
      rw [shiftInsertFuel_eq key x racc fuel (by simp at h; omega)]
      exact ih _ fuel (by rw [shiftInsert_length]; simp at h ⊢; omega)
  unfold insertion_sortFuel insertion_sort
  rw [main data [] data.length (by simp)]
  rfl

/-- The `linear_search` scan with fuel spent once per visited element. -/
def linearSearchGoFuel (key : α → κ) (target : κ) :
    Nat → List α → Nat → Option (Option Nat)
  | _, [], _ => some none
  | fuel + 1, item :: rest, i =>
    if key item = target then some (some i)
    else linearSearchGoFuel key target fuel rest (i + 1)
  | 0, _ :: _, _ => none

theorem linearSearchGoFuel_eq (key : α → κ) (target : κ) :
    ∀ (l : List α) fuel i, l.length ≤ fuel →
      linearSearchGoFuel key target fuel l i
        = some (linearSearchGo key target l i) := by
  intro l
  induction l with
  | nil => intro fuel i _; cases fuel <;> simp [linearSearchGoFuel, linearSearchGo]
  | cons x xs ih =>
    intro fuel i hlen
    cases fuel with
    | zero => simp at hlen
    | succ n =>
      have : xs.length ≤ n := by simpa using hlen
      by_cases h : key x = target <;>
        simp [linearSearchGoFuel, linearSearchGo, h, ih n (i + 1) this]

/-- C9: every call runs to completion.  Each recursion / loop, replayed
with an explicit fuel counter, completes within the stated bound and
returns exactly the value of the direct definition: `merge_sort` within
recursion depth `length + 1` (each half is strictly shorter),
`insertion_sort` with at most `length` shifts per insertion, the
`binary_search` loop within `length + 1` iterations, and `linear_search`
within `length` steps. -/
theorem claim_C9_all_calls_terminate (key : α → κ) (S : List α)
    (target : κ) :
    merge_sortFuel key (S.length + 1) S = some (merge_sort key S) ∧
    insertion_sortFuel key S.length S = some (insertion_sort key S) ∧
    bsearchLoopFuel key S target (S.length + 1) 0 ((S.length : Int) - 1)
      = some (binary_search key S target) ∧
    linearSearchGoFuel key target S.length S 0
      = some (linear_search key S target) := by
  refine ⟨merge_sortFuel_eq key _ S (by omega),
    insertion_sortFuel_eq key S, ?_, ?_⟩
  · rw [show binary_search key S target
        = bsearchLoop key S target 0 ((S.length : Int) - 1) from rfl]
    exact bsearchLoopFuel_eq key S target _ 0 _ (by omega)
  · rw [show linear_search key S target = linearSearchGo key target S 0
        from rfl]
    exact linearSearchGoFuel_eq key target S _ 0 (le_refl _)

/-! ### Non-mutation (C5): array-level transcription

`insertion_sort` is the one function of the toolkit whose statements
write to an array.  `insInner` / `insForLoop` transcribe its loops
literally at the level of the working array (`List.set` for
`result[j+1] = ...`); `insertion_sort_imp` returns the pair (input
sequence after the call, returned sequence): the input component is
untouched because every write of the source targets the fresh copy
`result = list(data)`, never `data`.  The same pairing is given for
`merge_sort`, whose body only reads `data` (slicing copies). -/

/-- Inner `while j >= 0 and key(result[j]) > key(current)` loop of
`insertion_sort`, with `jj` encoding `j + 1` so that `jj = 0` is the
exhausted cursor `j = -1`.  Each iteration performs
`result[j+1] = result[j]`; on exit `result[j+1] = current`.  An
out-of-range read (impossible on the calls made by `insForLoop`) leaves
the array unchanged. -/
def insInner (key : α → κ) (current : α) : Nat → List α → List α
  | 0, result => result.set 0 current
  | j + 1, result =>
    match result[j]? with
    | none => result
    | some rj =>
      if key rj > key current then insInner key current j (result.set (j + 1) rj)
      else result.set (j + 1) current

theorem insInner_length (key : α → κ) (current : α) :
    ∀ (j : Nat) (result : List α),
      (insInner key current j result).length = result.length := by
  intro j
  induction j with
  | zero => intro result; simp [insInner]
  | succ j ih =>
    intro result
    cases hr : result[j]? with
    | none => simp [insInner, hr]
    | some rj =>
      by_cases h : key rj > key current <;> simp [insInner, hr, h, ih]

/-- Outer `for i in range(1, len(result))` loop of `insertion_sort`. -/
def insForLoop (key : α → κ) (result : List α) (i : Nat) : List α :=
  if h : i < result.length then
    insForLoop key (insInner key (result.get ⟨i, h⟩) i result) (i + 1)
  else result
termination_by result.length - i
decreasing_by
  rw [insInner_length]
  omega

/-- `insertion_sort(data, key)` at the array level, returning the pair
(input sequence after the call, result).  `result = list(data)` is a
fresh copy whose value equals `data`; all subsequent writes target it. -/
def insertion_sort_imp (key : α → κ) (data : List α) : List α × List α :=
  (data, insForLoop key data 1)

theorem set_append_length (l : List α) (z a : α) (rest : List α) :
    (l ++ z :: rest).set l.length a = l ++ a :: rest := by
  induction l with
  | nil => simp
  | cons x xs ih => simp [List.set_cons_succ, ih]

theorem getElem?_append_length (l : List α) (z : α) (rest : List α) :
    (l ++ z :: rest)[l.length]? = some z := by
  rw [List.getElem?_append_right (le_refl _)]
  simp

/-- The inner loop started at cursor `jj = q.length` on an array of
shape `q ++ z :: rest` (the cell at the cursor position is write-only
during the pass) computes exactly the rightward-shift insertion of
`current` into `q`. -/
theorem insInner_eq_shiftInsert (key : α → κ) (current : α) :
    ∀ (q : List α) (z : α) (rest : List α),
      insInner key current q.length (q ++ z :: rest)
        = (shiftInsert key current q.reverse).reverse ++ rest := by
  intro q
  induction q using List.reverseRecOn with
  | nil => simp [insInner, shiftInsert]
  | append_singleton q y ih =>
    intro z rest
    have hlen : (q ++ [y]).length = q.length + 1 := by simp
    rw [hlen]
    have harr : (q ++ [y]) ++ z :: rest = q ++ y :: z :: rest := by simp
    rw [insInner, harr, getElem?_append_length q y (z :: rest)]
    dsimp only
    by_cases h : key y > key current
    · rw [if_pos h]
      have hset : (q ++ y :: z :: rest).set (q.length + 1) y
          = q ++ y :: y :: rest := by
        rw [show q ++ y :: z :: rest = (q ++ [y]) ++ z :: rest from by simp,
          show q.length + 1 = (q ++ [y]).length from by simp,
          set_append_length, List.append_assoc]
        simp
      rw [hset, ih y (y :: rest)]
      rw [show (q ++ [y]).reverse = y :: q.reverse from by simp]
      rw [show shiftInsert key current (y :: q.reverse)
            = y :: shiftInsert key current q.reverse from by
          simp [shiftInsert, h]]
      simp
    · rw [if_neg h]
      rw [show q ++ y :: z :: rest = (q ++ [y]) ++ z :: rest from by simp,
        show q.length + 1 = (q ++ [y]).length from by simp,
        set_append_length]
      rw [show (q ++ [y]).reverse = y :: q.reverse from by simp]
      rw [show shiftInsert key current (y :: q.reverse)
            = current :: y :: q.reverse from by simp [shiftInsert, h]]
      simp

/-- The outer loop started at `i = racc.reverse.length` on an array of
shape `racc.reverse ++ rest` computes the functional insertion sort of
the remaining elements. -/
theorem insForLoop_eq_foldl (key : α → κ) :
    ∀ (rest racc : List α),
      insForLoop key (racc.reverse ++ rest) racc.reverse.length
        = (rest.foldl (fun acc current => shiftInsert key current acc)
            racc).reverse := by
  intro rest
  induction rest with
  | nil =>
    intro racc
    rw [insForLoop]
    simp
  | cons x rest ih =>
    intro racc
    rw [insForLoop]
    have hlt : racc.reverse.length < (racc.reverse ++ x :: rest).length := by
      simp
    rw [dif_pos hlt]
    have hget : (racc.reverse ++ x :: rest).get ⟨racc.reverse.length, hlt⟩
        = x := by
      have h2 := getElem?_append_length racc.reverse x rest
      rw [List.get_eq_getElem]
      exact (List.getElem?_eq_some_iff.mp h2).2
    rw [hget, insInner_eq_shiftInsert key x racc.reverse x rest,
      List.reverse_reverse]
    have hlen : racc.reverse.length + 1
        = (shiftInsert key x racc).reverse.length := by
      simp [shiftInsert_length]
    rw [hlen, ih (shiftInsert key x racc), List.foldl_cons]

theorem insertion_sort_imp_spec (key : α → κ) (data : List α) :
    insertion_sort_imp key data = (data, insertion_sort key data) := by
  unfold insertion_sort_imp insertion_sort
  refine Prod.ext rfl ?_
  cases data with
  | nil =>
    rw [insForLoop]
    simp
  | cons d ds =>
    have h := insForLoop_eq_foldl key ds [d]
    simp only [List.reverse_cons, List.reverse_nil, List.nil_append,
      List.length_cons, List.length_nil, List.singleton_append] at h
    rw [show (d :: ds).foldl (fun racc current => shiftInsert key current racc)
          [] = ds.foldl (fun racc current => shiftInsert key current racc) [d]
        from by simp [List.foldl_cons, shiftInsert]]
    exact h

/-- `merge_sort(data, key)` with the input sequence threaded through the
call and returned alongside the result: the body of the source only
reads `data` (`len`, slicing — both non-mutating), so the input
component passes through unchanged. -/
def merge_sort_imp (key : α → κ) (data : List α) : List α × List α :=
  if data.length ≤ 1 then (data, data)
  else
    (data,
      _merge key (merge_sort_imp key (data.take (data.length / 2))).2
        (merge_sort_imp key (data.drop (data.length / 2))).2)
termination_by data.length
decreasing_by
  · simp only [List.length_take]; omega
  · simp only [List.length_drop]; omega

theorem merge_sort_imp_spec (key : α → κ) (data : List α) :
    merge_sort_imp key data = (data, merge_sort key data) := by
  induction data using merge_sort_imp.induct key with
  | case1 data h =>
    rw [merge_sort_imp, if_pos h,
      show merge_sort key data = data from by rw [merge_sort]; simp [h]]
  | case2 data h ih1 ih2 =>
    rw [merge_sort_imp, if_neg h, ih1, ih2,
      show merge_sort key data
          = _merge key (merge_sort key (data.take (data.length / 2)))
              (merge_sort key (data.drop (data.length / 2))) from by
        rw [merge_sort]; simp [h]]

/-- C5: neither sort mutates its input.  At the transcription level
where the working array of `insertion_sort` is explicit (every
`result[j+1] = ...` write is a `List.set` on the copy) and the input
sequence is threaded through both calls, the input component comes back
exactly as it went in, and the result component equals the functional
definition. -/
theorem claim_C5_input_not_mutated (key : α → κ) (data : List α) :
    insertion_sort_imp key data = (data, insertion_sort key data) ∧
    merge_sort_imp key data = (data, merge_sort key data) :=
  ⟨insertion_sort_imp_spec key data, merge_sort_imp_spec key data⟩

/-! ### Error propagation (C8): the key function may fail

The key function is re-modelled as `key? : α → Except ε κ`; a Python
exception raised by `key` becomes `Except.error`.  Each toolkit function
is transcribed with every `key(...)` call performed at exactly the same
point of the control flow, a raised error aborting the call immediately
(the explicit `match`es mirror exception propagation: no retry, no
partial result — the functions return `Except`, so an error carries no
output sequence or index). -/

variable {ε : Type*}

/-- `_merge` with a fallible key function. -/
def _mergeE (key? : α → Except ε κ) : List α → List α → Except ε (List α)
  | [], right => .ok right
  | left, [] => .ok left
  | a :: left, b :: right =>
    match key? a with
    | .error e => .error e
    | .ok ka =>
      match key? b with
      | .error e => .error e
      | .ok kb =>
        if ka ≤ kb then (_mergeE key? left (b :: right)).map (a :: ·)
        else (_mergeE key? (a :: left) right).map (b :: ·)
termination_by l r => l.length + r.length

/-- `merge_sort` with a fallible key function. -/
def merge_sortE (key? : α → Except ε κ) (data : List α) :
    Except ε (List α) :=
  if data.length ≤ 1 then .ok data
  else
    match merge_sortE key? (data.take (data.length / 2)) with
    | .error e => .error e
    | .ok l =>
      match merge_sortE key? (data.drop (data.length / 2)) with
      | .error e => .error e
      | .ok r => _mergeE key? l r
termination_by data.length
decreasing_by
  · simp only [List.length_take]; omega
  · simp only [List.length_drop]; omega

/-- The binary-search loop with a fallible key function. -/
def bsearchLoopE (key? : α → Except ε κ) (data : List α) (target : κ)
    (low high : Int) : Except ε (Option Nat) :=
  if low ≤ high then
    match data[((low + high) / 2).toNat]? with
    | none => .ok none
    | some item =>
      match key? item with
      | .error e => .error e
      | .ok mv =>
        if mv = target then .ok (some ((low + high) / 2).toNat)
        else if mv < target then
          bsearchLoopE key? data target ((low + high) / 2 + 1) high
        else
          bsearchLoopE key? data target low ((low + high) / 2 - 1)
  else .ok none
termination_by (high - low + 1).toNat
decreasing_by
  · omega
  · omega

def binary_searchE (key? : α → Except ε κ) (data : List α) (target : κ) :
    Except ε (Option Nat) :=
  bsearchLoopE key? data target 0 ((data.length : Int) - 1)

/-- The inner shift loop of `insertion_sort` with a fallible key
function: each iteration evaluates `key(result[j])` then
`key(current)`, exactly as the Python loop condition does. -/
def shiftInsertE (key? : α → Except ε κ) (current : α) :
    List α → Except ε (List α)
  | [] => .ok [current]
  | y :: ys =>
    match key? y with
    | .error e => .error e
    | .ok ky =>
      match key? current with
      | .error e => .error e
      | .ok kc =>
        if ky > kc then (shiftInsertE key? current ys).map (y :: ·)
        else .ok (current :: y :: ys)

/-- The outer loop of `insertion_sort` with a fallible key function. -/
def insSortEGo (key? : α → Except ε κ) : List α → List α → Except ε (List α)
  | [], racc => .ok racc
  | x :: xs, racc =>
    match shiftInsertE key? x racc with
    | .error e => .error e
    | .ok racc2 => insSortEGo key? xs racc2

def insertion_sortE (key? : α → Except ε κ) (data : List α) :
    Except ε (List α) :=
  match insSortEGo key? data [] with
  | .error e => .error e
  | .ok r => .ok r.reverse

/-- The `linear_search` scan with a fallible key function. -/
def linearSearchGoE (key? : α → Except ε κ) (target : κ) :
    List α → Nat → Except ε (Option Nat)
  | [], _ => .ok none
  | item :: rest, i =>
    match key? item with
    | .error e => .error e
    | .ok kx =>
      if kx = target then .ok (some i)
      else linearSearchGoE key? target rest (i + 1)

def linear_searchE (key? : α → Except ε κ) (data : List α) (target : κ) :
    Except ε (Option Nat) :=
  linearSearchGoE key? target data 0

theorem _mergeE_ok (key : α → κ) (key? : α → Except ε κ) :
    ∀ (l r : List α), (∀ x ∈ l, key? x = .ok (key x)) →
      (∀ x ∈ r, key? x = .ok (key x)) →
      _mergeE key? l r = .ok (_merge key l r) := by
  intro l r
  induction l, r using _mergeE.induct key? with
  | case1 right => intro _ _; simp [_mergeE, _merge]
  | case2 left h =>
    intro _ _
    cases left with
    | nil => simp [_mergeE, _merge]
    | cons a l2 => simp [_mergeE, _merge]
  | case3 a left b right e hke =>
    intro hl _
    rw [hl a (by simp)] at hke
    simp at hke
  | case4 a left b right ka hka e hke =>
    intro _ hr
    rw [hr b (by simp)] at hke
    simp at hke
  | case5 a left b right ka hka kb hkb hle ih =>
    intro hl hr
    have ha := hl a (by simp)
    have hb := hr b (by simp)
    rw [ha] at hka
    rw [hb] at hkb
    injection hka with hka2
    injection hkb with hkb2
    subst hka2
    subst hkb2
    rw [show _merge key (a :: left) (b :: right)
          = a :: _merge key left (b :: right) from by rw [_merge]; simp [hle]]
    rw [_mergeE, ha, hb]
    dsimp only
    rw [if_pos hle, ih (fun x hx => hl x (List.mem_cons_of_mem a hx)) hr]
    rfl
  | case6 a left b right ka hka kb hkb hle ih =>
    intro hl hr
    have ha := hl a (by simp)
    have hb := hr b (by simp)
    rw [ha] at hka
    rw [hb] at hkb
    injection hka with hka2
    injection hkb with hkb2
    subst hka2
    subst hkb2
    rw [show _merge key (a :: left) (b :: right)
          = b :: _merge key (a :: left) right from by rw [_merge]; simp [hle]]
    rw [_mergeE, ha, hb]
    dsimp only
    rw [if_neg hle, ih hl (fun x hx => hr x (List.mem_cons_of_mem b hx))]
    rfl

theorem _mergeE_ok_subset (key? : α → Except ε κ) :
    ∀ (l r : List α), ∀ m, _mergeE key? l r = .ok m →
      ∀ x ∈ m, x ∈ l ∨ x ∈ r := by
  intro l r
  induction l, r using _mergeE.induct key? with
  | case1 right =>
    intro m h x hx
    simp [_mergeE] at h
    subst h
    exact Or.inr hx
  | case2 left hne =>
    intro m h x hx
    cases left with
    | nil => simp [_mergeE] at h; subst h; exact Or.inl hx
    | cons a l2 => simp [_mergeE] at h; subst h; exact Or.inl hx
  | case3 a left b right e hke =>
    intro m h
    rw [_mergeE, hke] at h
    simp at h
  | case4 a left b right ka hka e hke =>
    intro m h
    rw [_mergeE, hka] at h
    dsimp only at h
    rw [hke] at h
    simp at h
  | case5 a left b right ka hka kb hkb hle ih =>
    intro m h x hx
    rw [_mergeE, hka] at h
    dsimp only at h
    rw [hkb] at h
    dsimp only at h
    rw [if_pos hle] at h
    cases hrec : _mergeE key? left (b :: right) with
    | error e2 => rw [hrec] at h; simp [Except.map] at h
    | ok m2 =>
      rw [hrec] at h
      simp only [Except.map] at h
      injection h with h2
      subst h2
      rcases List.mem_cons.mp hx with rfl | hx2
      · exact Or.inl (by simp)
      · rcases ih m2 hrec x hx2 with h3 | h3
        · exact Or.inl (List.mem_cons_of_mem a h3)
        · exact Or.inr h3
  | case6 a left b right ka hka kb hkb hle ih =>
    intro m h x hx
    rw [_mergeE, hka] at h
    dsimp only at h
    rw [hkb] at h
    dsimp only at h
    rw [if_neg hle] at h
    cases hrec : _mergeE key? (a :: left) right with
    | error e2 => rw [hrec] at h; simp [Except.map] at h
    | ok m2 =>
      rw [hrec] at h
      simp only [Except.map] at h
      injection h with h2
      subst h2
      rcases List.mem_cons.mp hx with rfl | hx2
      · exact Or.inr (by simp)
      · rcases ih m2 hrec x hx2 with h3 | h3
        · exact Or.inl h3
        · exact Or.inr (List.mem_cons_of_mem b h3)

theorem _mergeE_error (key? : α → Except ε κ) :
    ∀ (l r : List α), ∀ e, _mergeE key? l r = .error e →
      ∃ x, (x ∈ l ∨ x ∈ r) ∧ key? x = .error e := by
  intro l r
  induction l, r using _mergeE.induct key? with
  | case1 right => intro e h; simp [_mergeE] at h
  | case2 left hne =>
    intro e h
    cases left with
    | nil => simp [_mergeE] at h
    | cons a l2 => simp [_mergeE] at h
  | case3 a left b right e0 hke =>
    intro e h
    rw [_mergeE, hke] at h
    dsimp only at h
    injection h with h2
    subst h2
    exact ⟨a, Or.inl (by simp), hke⟩
  | case4 a left b right ka hka e0 hke =>
    intro e h
    rw [_mergeE, hka] at h
    dsimp only at h
    rw [hke] at h
    dsimp only at h
    injection h with h2
    subst h2
    exact ⟨b, Or.inr (by simp), hke⟩
  | case5 a left b right ka hka kb hkb hle ih =>
    intro e h
    rw [_mergeE, hka] at h
    dsimp only at h
    rw [hkb] at h
    dsimp only at h
    rw [if_pos hle] at h
    cases hrec : _mergeE key? left (b :: right) with
    | error e2 =>
      rw [hrec] at h
      simp only [Except.map] at h
      injection h with h2
      subst h2
      obtain ⟨x, hx, hkx⟩ := ih _ hrec
      exact ⟨x, hx.imp (List.mem_cons_of_mem a) id, hkx⟩
    | ok m2 => rw [hrec] at h; simp [Except.map] at h
  | case6 a left b right ka hka kb hkb hle ih =>
    intro e h
    rw [_mergeE, hka] at h
    dsimp only at h
    rw [hkb] at h
    dsimp only at h
    rw [if_neg hle] at h
    cases hrec : _mergeE key? (a :: left) right with
    | error e2 =>
      rw [hrec] at h
      simp only [Except.map] at h
      injection h with h2
      subst h2
      obtain ⟨x, hx, hkx⟩ := ih _ hrec
      exact ⟨x, hx.imp id (List.mem_cons_of_mem b), hkx⟩
    | ok m2 => rw [hrec] at h; simp [Except.map] at h

theorem merge_sortE_ok (key : α → κ) (key? : α → Except ε κ) :
    ∀ (data : List α), (∀ x ∈ data, key? x = .ok (key x)) →
      merge_sortE key? data = .ok (merge_sort key data) := by
  intro data
  induction data using merge_sortE.induct key? with
  | case1 data hlen =>
    intro _
    rw [show merge_sort key data = data from by rw [merge_sort]; simp [hlen]]
    rw [merge_sortE]
    simp [hlen]
  | case2 data hlen e herr ih =>
    intro hall
    rw [ih (fun x hx => hall x ((List.take_sublist _ _).subset hx))] at herr
    simp at herr
  | case3 data hlen r1 h1 e herr ih1 ih2 =>
    intro hall
    rw [ih2 (fun x hx => hall x ((List.drop_sublist _ _).subset hx))] at herr
    simp at herr
  | case4 data hlen r1 h1 r2 h2 ih1 ih2 =>
    intro hall
    have e1 := ih1 (fun x hx => hall x ((List.take_sublist _ _).subset hx))
    have e2 := ih2 (fun x hx => hall x ((List.drop_sublist _ _).subset hx))
    rw [h1] at e1
    rw [h2] at e2
    injection e1 with e1
    injection e2 with e2
    subst e1
    subst e2
    rw [merge_sortE]
    simp only [hlen, if_neg, h1, h2]
    rw [show merge_sort key data
          = _merge key (merge_sort key (data.take (data.length / 2)))
              (merge_sort key (data.drop (data.length / 2))) from by
        rw [merge_sort]; simp [hlen]]
    exact _mergeE_ok key key? _ _
      (fun x hx => hall x ((List.take_sublist _ _).subset
        ((merge_sort_perm key _).mem_iff.mp hx)))
      (fun x hx => hall x ((List.drop_sublist _ _).subset
        ((merge_sort_perm key _).mem_iff.mp hx)))

theorem merge_sortE_ok_subset (key? : α → Except ε κ) :
    ∀ (data : List α), ∀ m, merge_sortE key? data = .ok m →
      ∀ x ∈ m, x ∈ data := by
  intro data
  induction data using merge_sortE.induct key? with
  | case1 data hlen =>
    intro m h x hx
    rw [merge_sortE] at h
    simp [hlen] at h
    subst h
    exact hx
  | case2 data hlen e herr ih =>
    intro m h
    rw [merge_sortE] at h
    simp [hlen, herr] at h
  | case3 data hlen r1 h1 e herr ih1 ih2 =>
    intro m h
    rw [merge_sortE] at h
    simp [hlen, h1, herr] at h
  | case4 data hlen r1 h1 r2 h2 ih1 ih2 =>
    intro m h x hx
    rw [merge_sortE] at h
    simp only [hlen, if_neg, h1, h2] at h
    rcases _mergeE_ok_subset key? r1 r2 m h x hx with h3 | h3
    · exact (List.take_sublist _ _).subset (ih1 r1 h1 x h3)
    · exact (List.drop_sublist _ _).subset (ih2 r2 h2 x h3)

theorem merge_sortE_error (key? : α → Except ε κ) :
    ∀ (data : List α), ∀ e, merge_sortE key? data = .error e →
      ∃ x ∈ data, key? x = .error e := by
  intro data
  induction data using merge_sortE.induct key? with
  | case1 data hlen =>
    intro e h
    rw [merge_sortE] at h
    simp [hlen] at h
  | case2 data hlen e0 herr ih =>
    intro e h
    rw [merge_sortE] at h
    simp only [hlen, if_neg, herr] at h
    injection h with h2
    subst h2
    obtain ⟨x, hx, hkx⟩ := ih e0 herr
    exact ⟨x, (List.take_sublist _ _).subset hx, hkx⟩
  | case3 data hlen r1 h1 e0 herr ih1 ih2 =>
    intro e h
    rw [merge_sortE] at h
    simp only [hlen, if_neg, h1, herr] at h
    injection h with h2
    subst h2
    obtain ⟨x, hx, hkx⟩ := ih2 e0 herr
    exact ⟨x, (List.drop_sublist _ _).subset hx, hkx⟩
  | case4 data hlen r1 h1 r2 h2 ih1 ih2 =>
    intro e h
    rw [merge_sortE] at h
    simp only [hlen, if_neg, h1, h2] at h
    obtain ⟨x, hx, hkx⟩ := _mergeE_error key? r1 r2 e h
    rcases hx with h3 | h3
    · exact ⟨x, (List.take_sublist _ _).subset (merge_sortE_ok_subset key? _ r1 h1 x h3), hkx⟩
    · exact ⟨x, (List.drop_sublist _ _).subset (merge_sortE_ok_subset key? _ r2 h2 x h3), hkx⟩

theorem bsearchLoopE_ok (key : α → κ) (key? : α → Except ε κ)
    (data : List α) (target : κ)
    (hall : ∀ x ∈ data, key? x = .ok (key x)) :
    ∀ low high, bsearchLoopE key? data target low high
      = .ok (bsearchLoop key data target low high) := by
  intro low high
  induction low, high using bsearchLoopE.induct key? data target with
  | case1 low high h1 hget =>
    rw [bsearchLoop, bsearchLoopE]
    simp [h1, hget]
  | case2 low high h1 item hget e hke =>
    rw [hall item (mem_of_getElem_some hget)] at hke
    simp at hke
  | case3 low high h1 item hget hke =>
    have hitem := hall item (mem_of_getElem_some hget)
    rw [hitem] at hke
    injection hke with hk2
    rw [bsearchLoop, bsearchLoopE]
    simp [h1, hget, hitem, hk2]
  | case4 low high h1 item hget kb hkb hne hlt ih =>
    have hitem := hall item (mem_of_getElem_some hget)
    rw [hitem] at hkb
    injection hkb with hk2
    subst hk2
    rw [bsearchLoop, bsearchLoopE]
    simp only [if_pos h1, hget, hitem]
    rw [if_neg hne, if_pos hlt, if_neg hne, if_pos hlt]
    exact ih
  | case5 low high h1 item hget kb hkb hne hlt ih =>
    have hitem := hall item (mem_of_getElem_some hget)
    rw [hitem] at hkb
    injection hkb with hk2
    subst hk2
    rw [bsearchLoop, bsearchLoopE]
    simp only [if_pos h1, hget, hitem]
    rw [if_neg hne, if_neg hlt, if_neg hne, if_neg hlt]
    exact ih
  | case6 low high h1 =>
    rw [bsearchLoop, bsearchLoopE]
    simp [h1]

theorem bsearchLoopE_error (key? : α → Except ε κ) (data : List α)
    (target : κ) :
    ∀ low high e, bsearchLoopE key? data target low high = .error e →
      ∃ x ∈ data, key? x = .error e := by
  intro low high
  induction low, high using bsearchLoopE.induct key? data target with
  | case1 low high h1 hget =>
    intro e h
    rw [bsearchLoopE] at h
    simp [h1, hget] at h
  | case2 low high h1 item hget e0 hke =>
    intro e h
    rw [bsearchLoopE] at h
    simp only [if_pos h1, hget, hke] at h
    injection h with h2
    subst h2
    exact ⟨item, mem_of_getElem_some hget, hke⟩
  | case3 low high h1 item hget hke =>
    intro e h
    rw [bsearchLoopE] at h
    simp [h1, hget, hke] at h
  | case4 low high h1 item hget kb hkb hne hlt ih =>
    intro e h
    rw [bsearchLoopE] at h
    simp only [if_pos h1, hget, hkb] at h
    rw [if_neg hne, if_pos hlt] at h
    exact ih e h
  | case5 low high h1 item hget kb hkb hne hlt ih =>
    intro e h
    rw [bsearchLoopE] at h
    simp only [if_pos h1, hget, hkb] at h
    rw [if_neg hne, if_neg hlt] at h
    exact ih e h
  | case6 low high h1 =>
    intro e h
    rw [bsearchLoopE] at h
    simp [h1] at h

theorem shiftInsertE_ok (key : α → κ) (key? : α → Except ε κ) (current : α)
    (hc : key? current = .ok (key current)) :
    ∀ l, (∀ x ∈ l, key? x = .ok (key x)) →
      shiftInsertE key? current l = .ok (shiftInsert key current l) := by
  intro l
  induction l using shiftInsertE.induct key? current with
  | case1 => intro _; simp [shiftInsertE, shiftInsert]
  | case2 y ys e hke =>
    intro hall
    rw [hall y (by simp)] at hke
    simp at hke
  | case3 y ys kb hkb e hke =>
    intro _
    rw [hc] at hke
    simp at hke
  | case4 y ys kb hkb kc hkc hgt ih =>
    intro hall
    have hy := hall y (by simp)
    rw [hy] at hkb
    injection hkb with h2
    subst h2
    rw [hc] at hkc
    injection hkc with h3
    subst h3
    rw [show shiftInsert key current (y :: ys)
          = y :: shiftInsert key current ys from by simp [shiftInsert, hgt]]
    rw [shiftInsertE, hy]
    dsimp only
    rw [hc]
    dsimp only
    rw [if_pos hgt, ih (fun x hx => hall x (List.mem_cons_of_mem y hx))]
    rfl
  | case5 y ys kb hkb kc hkc hgt =>
    intro hall
    have hy := hall y (by simp)
    rw [hy] at hkb
    injection hkb with h2
    subst h2
    rw [hc] at hkc
    injection hkc with h3
    subst h3
    rw [show shiftInsert key current (y :: ys)
          = current :: y :: ys from by simp [shiftInsert, hgt]]
    rw [shiftInsertE, hy]
    dsimp only
    rw [hc]
    dsimp only
    rw [if_neg hgt]

theorem shiftInsertE_ok_subset (key? : α → Except ε κ) (current : α) :
    ∀ l m, shiftInsertE key? current l = .ok m →
      ∀ x ∈ m, x = current ∨ x ∈ l := by
  intro l
  induction l using shiftInsertE.induct key? current with
  | case1 =>
    intro m h x hx
    simp [shiftInsertE] at h
    subst h
    simp at hx
    exact Or.inl hx
  | case2 y ys e hke =>
    intro m h
    rw [shiftInsertE, hke] at h
    simp at h
  | case3 y ys kb hkb e hke =>
    intro m h
    rw [shiftInsertE, hkb] at h
    dsimp only at h
    rw [hke] at h
    simp at h
  | case4 y ys kb hkb kc hkc hgt ih =>
    intro m h x hx
    rw [shiftInsertE, hkb] at h
    dsimp only at h
    rw [hkc] at h
    dsimp only at h
    rw [if_pos hgt] at h
    cases hrec : shiftInsertE key? current ys with
    | error e2 => rw [hrec] at h; simp [Except.map] at h
    | ok m2 =>
      rw [hrec] at h
      simp only [Except.map] at h
      injection h with h2
      subst h2
      rcases List.mem_cons.mp hx with rfl | hx2
      · exact Or.inr (by simp)
      · rcases ih m2 hrec x hx2 with h3 | h3
        · exact Or.inl h3
        · exact Or.inr (List.mem_cons_of_mem y h3)
  | case5 y ys kb hkb kc hkc hgt =>
    intro m h x hx
    rw [shiftInsertE, hkb] at h
    dsimp only at h
    rw [hkc] at h
    dsimp only at h
    rw [if_neg hgt] at h
    injection h with h2
    subst h2
    rcases List.mem_cons.mp hx with rfl | hx2
    · exact Or.inl rfl
    · exact Or.inr hx2

theorem shiftInsertE_error (key? : α → Except ε κ) (current : α) :
    ∀ l e, shiftInsertE key? current l = .error e →
      ∃ x, (x = current ∨ x ∈ l) ∧ key? x = .error e := by
  intro l
  induction l using shiftInsertE.induct key? current with
  | case1 => intro e h; simp [shiftInsertE] at h
  | case2 y ys e0 hke =>
    intro e h
    rw [shiftInsertE, hke] at h
    dsimp only at h
    injection h with h2
    subst h2
    exact ⟨y, Or.inr (by simp), hke⟩
  | case3 y ys kb hkb e0 hke =>
    intro e h
    rw [shiftInsertE, hkb] at h
    dsimp only at h
    rw [hke] at h
    dsimp only at h
    injection h with h2
    subst h2
    exact ⟨current, Or.inl rfl, hke⟩
  | case4 y ys kb hkb kc hkc hgt ih =>
    intro e h
    rw [shiftInsertE, hkb] at h
    dsimp only at h
    rw [hkc] at h
    dsimp only at h
    rw [if_pos hgt] at h
    cases hrec : shiftInsertE key? current ys with
    | error e2 =>
      rw [hrec] at h
      simp only [Except.map] at h
      injection h with h2
      subst h2
      obtain ⟨x, hx, hkx⟩ := ih _ hrec
      exact ⟨x, hx.imp id (List.mem_cons_of_mem y), hkx⟩
    | ok m2 => rw [hrec] at h; simp [Except.map] at h
  | case5 y ys kb hkb kc hkc hgt =>
    intro e h
    rw [shiftInsertE, hkb] at h
    dsimp only at h
    rw [hkc] at h
    dsimp only at h
    rw [if_neg hgt] at h
    simp at h

theorem insSortEGo_ok (key : α → κ) (key? : α → Except ε κ) :
    ∀ (xs racc : List α), (∀ x ∈ xs, key? x = .ok (key x)) →
      (∀ x ∈ racc, key? x = .ok (key x)) →
      insSortEGo key? xs racc
        = .ok (xs.foldl (fun acc current => shiftInsert key current acc)
            racc) := by
  intro xs
  induction xs with
  | nil => intro racc _ _; simp [insSortEGo]
  | cons x xs ih =>
    intro racc hxs hracc
    have hx := hxs x (by simp)
    rw [insSortEGo, shiftInsertE_ok key key? x hx racc hracc]
    dsimp only
    rw [List.foldl_cons]
    refine ih _ (fun z hz => hxs z (List.mem_cons_of_mem x hz)) ?_
    intro z hz
    rcases mem_shiftInsert.mp hz with rfl | h2
    · exact hx
    · exact hracc z h2

theorem insSortEGo_error (key? : α → Except ε κ) :
    ∀ (xs racc : List α) e, insSortEGo key? xs racc = .error e →
      ∃ x, (x ∈ xs ∨ x ∈ racc) ∧ key? x = .error e := by
  intro xs
  induction xs with
  | nil => intro racc e h; simp [insSortEGo] at h
  | cons x xs ih =>
    intro racc e h
    rw [insSortEGo] at h
    cases hsh : shiftInsertE key? x racc with
    | error e2 =>
      rw [hsh] at h
      dsimp only at h
      injection h with h2
      subst h2
      obtain ⟨y, hy, hky⟩ := shiftInsertE_error key? x racc _ hsh
      refine ⟨y, ?_, hky⟩
      rcases hy with rfl | h3
      · exact Or.inl (by simp)
      · exact Or.inr h3
    | ok racc2 =>
      rw [hsh] at h
      dsimp only at h
      obtain ⟨y, hy, hky⟩ := ih racc2 e h
      refine ⟨y, ?_, hky⟩
      rcases hy with h3 | h3
      · exact Or.inl (List.mem_cons_of_mem x h3)
      · rcases shiftInsertE_ok_subset key? x racc racc2 hsh y h3 with rfl | h4
        · exact Or.inl (by simp)
        · exact Or.inr h4

theorem linearSearchGoE_ok (key : α → κ) (key? : α → Except ε κ)
    (target : κ) :
    ∀ (l : List α), (∀ x ∈ l, key? x = .ok (key x)) →
      ∀ i, linearSearchGoE key? target l i
        = .ok (linearSearchGo key target l i) := by
  intro l
  induction l with
  | nil => intro _ i; simp [linearSearchGoE, linearSearchGo]
  | cons x xs ih =>
    intro hall i
    have hx := hall x (by simp)
    rw [linearSearchGoE, hx]
    dsimp only
    by_cases h : key x = target
    · rw [if_pos h,
        show linearSearchGo key target (x :: xs) i = some i from by
          simp [linearSearchGo, h]]
    · rw [if_neg h,
        show linearSearchGo key target (x :: xs) i
            = linearSearchGo key target xs (i + 1) from by
          simp [linearSearchGo, h]]
      exact ih (fun z hz => hall z (List.mem_cons_of_mem x hz)) (i + 1)

theorem linearSearchGoE_error (key? : α → Except ε κ) (target : κ) :
    ∀ (l : List α) i e, linearSearchGoE key? target l i = .error e →
      ∃ x ∈ l, key? x = .error e := by
  intro l
  induction l with
  | nil => intro i e h; simp [linearSearchGoE] at h
  | cons x xs ih =>
    intro i e h
    rw [linearSearchGoE] at h
    cases hk : key? x with
    | error e2 =>
      rw [hk] at h
      dsimp only at h
      injection h with h2
      subst h2
      exact ⟨x, by simp, hk⟩
    | ok kx =>
      rw [hk] at h
      dsimp only at h
      by_cases hx : kx = target
      · rw [if_pos hx] at h
        simp at h
      · rw [if_neg hx] at h
        obtain ⟨y, hy, hky⟩ := ih (i + 1) e h
        exact ⟨y, List.mem_cons_of_mem x hy, hky⟩

theorem insertion_sortE_ok (key : α → κ) (key? : α → Except ε κ)
    (data : List α) (hall : ∀ x ∈ data, key? x = .ok (key x)) :
    insertion_sortE key? data = .ok (insertion_sort key data) := by
  unfold insertion_sortE insertion_sort
  rw [insSortEGo_ok key key? data [] hall (by simp)]

theorem insertion_sortE_error (key? : α → Except ε κ) (data : List α)
    (e : ε) (h : insertion_sortE key? data = .error e) :
    ∃ x ∈ data, key? x = .error e := by
  unfold insertion_sortE at h
  cases hgo : insSortEGo key? data [] with
  | error e2 =>
    rw [hgo] at h
    dsimp only at h
    injection h with h2
    subst h2
    obtain ⟨x, hx, hkx⟩ := insSortEGo_error key? data [] _ hgo
    rcases hx with h3 | h3
    · exact ⟨x, h3, hkx⟩
    · cases h3
  | ok r =>
    rw [hgo] at h
    simp at h

/-- C8: key-function failures propagate.  With the key function
modelled as `Except`-valued, every toolkit function agrees with its pure
counterpart whenever the key succeeds on all items of the input, and
whenever a call returns an error that error was produced by the key
function on an item of the input sequence — the `Except` result carries
no partial output sequence or index. -/
theorem claim_C8_key_failure_propagates (key : α → κ)
    (key? : α → Except ε κ) (S : List α) (target : κ) :
    ((∀ x ∈ S, key? x = .ok (key x)) →
      merge_sortE key? S = .ok (merge_sort key S) ∧
      insertion_sortE key? S = .ok (insertion_sort key S) ∧
      binary_searchE key? S target = .ok (binary_search key S target) ∧
      linear_searchE key? S target = .ok (linear_search key S target)) ∧
    (∀ e, merge_sortE key? S = .error e → ∃ x ∈ S, key? x = .error e) ∧
    (∀ e, insertion_sortE key? S = .error e → ∃ x ∈ S, key? x = .error e) ∧
    (∀ e, binary_searchE key? S target = .error e →
      ∃ x ∈ S, key? x = .error e) ∧
    (∀ e, linear_searchE key? S target = .error e →
      ∃ x ∈ S, key? x = .error e) := by
  refine ⟨fun hall => ⟨merge_sortE_ok key key? S hall,
      insertion_sortE_ok key key? S hall,
      bsearchLoopE_ok key key? S target hall 0 ((S.length : Int) - 1),
      linearSearchGoE_ok key key? target S hall 0⟩,
    merge_sortE_error key? S,
    fun e h => insertion_sortE_error key? S e h,
    fun e h => bsearchLoopE_error key? S target 0 ((S.length : Int) - 1) e h,
    fun e h => linearSearchGoE_error key? target S 0 e h⟩

/-- Witness for C8: the agreement component at a concrete list with an
everywhere-succeeding key function. -/
theorem claim_C8_witness :
    merge_sortE (fun x : Nat => (Except.ok x : Except Unit Nat)) [2, 1]
        = Except.ok (merge_sort (fun x : Nat => x) [2, 1]) ∧
    insertion_sortE (fun x : Nat => (Except.ok x : Except Unit Nat)) [2, 1]
        = Except.ok (insertion_sort (fun x : Nat => x) [2, 1]) ∧
    binary_searchE (fun x : Nat => (Except.ok x : Except Unit Nat)) [2, 1] 1
        = Except.ok (binary_search (fun x : Nat => x) [2, 1] 1) ∧
    linear_searchE (fun x : Nat => (Except.ok x : Except Unit Nat)) [2, 1] 1
        = Except.ok (linear_search (fun x : Nat => x) [2, 1] 1) :=
  (claim_C8_key_failure_propagates (fun x : Nat => x)
    (fun x : Nat => (Except.ok x : Except Unit Nat)) [2, 1] 1).1
    (fun _ _ => rfl)

end CityBike
